import Mathlib

set_option maxHeartbeats 1000000

/-!
Verification of the object-store core of a small content-addressed version
control implementation (`src/lib.rs`).  The Rust source is shallowly embedded:
strings become `List Char` (the program only manipulates ASCII text), byte
buffers become `List Nat`, fallible code returns `Option` or `Except`, and a
`panic` (`unwrap` on a parse failure) is modelled as `none`.  The 160-bit
digest is kept abstract: operations are parameterised by the hex-digest
function `H : List Nat → List Char`, since every claim here concerns the byte
streams fed to the digest and the surrounding plumbing, not SHA-1 itself.
-/

namespace CCGit

/-- Character list of a string literal (the embedding of Rust string data). -/
def cs (s : String) : List Char := s.toList

/-- Decimal digit characters of a natural number, as Rust `format!` renders
an unsigned integer. -/
def natChars (n : Nat) : List Char := Nat.toDigits 10 n

/-- The character test of `valid_partial_sha1_name` (`lib.rs` line 301):
`('0'..='9').contains(&c) || ('a'..='z').contains(&c)`, phrased on code
points (48–57 and 97–122). -/
def isLowerAlnum (c : Char) : Bool :=
  (48 ≤ c.toNat && c.toNat ≤ 57) || (97 ≤ c.toNat && c.toNat ≤ 122)

/-- A lowercase hexadecimal digit (code points 48–57 and 97–102). -/
def isLowerHex (c : Char) : Bool :=
  (48 ≤ c.toNat && c.toNat ≤ 57) || (97 ≤ c.toNat && c.toNat ≤ 102)

/-- A hexadecimal digit in either case: the usual notion of a
"hexadecimal character". -/
def isHexChar (c : Char) : Bool :=
  isLowerHex c || (65 ≤ c.toNat && c.toNat ≤ 70)

/-- `char::to_digit(16)`: the numeric value of a hexadecimal digit
(accepting both cases), `none` otherwise. -/
def hexDigitVal? (c : Char) : Option Nat :=
  if 48 ≤ c.toNat ∧ c.toNat ≤ 57 then some (c.toNat - 48)
  else if 97 ≤ c.toNat ∧ c.toNat ≤ 102 then some (c.toNat - 87)
  else if 65 ≤ c.toNat ∧ c.toNat ≤ 70 then some (c.toNat - 55)
  else none

/-- One accumulation step of Rust integer parsing for `u8` in radix 16:
`checked_mul(16)` then `checked_add`/`checked_sub` of the digit value,
every intermediate constrained to the `u8` range `0..=255`. -/
def parseStep (pos : Bool) (acc : Option Nat) (ch : Char) : Option Nat :=
  acc.bind fun a =>
    (hexDigitVal? ch).bind fun d =>
      if a * 16 < 256 then
        if pos then
          if a * 16 + d < 256 then some (a * 16 + d) else none
        else
          if d ≤ a * 16 then some (a * 16 - d) else none
      else none

/-- `u8::from_str_radix(s, 16)` (used by `TreeEntry::as_bytes`,
`lib.rs` line 95): an optional leading `+` or `-` sign, then at least one
radix-16 digit, accumulated with checked `u8` arithmetic. -/
def parseU8Radix16 : List Char → Option Nat
  | [] => none
  | c :: rest =>
    let signed : Bool × List Char :=
      if c = '+' then (true, rest)
      else if c = '-' then (false, rest)
      else (true, c :: rest)
    if signed.2.isEmpty then none
    else signed.2.foldl (parseStep signed.1) (some 0)

/-- Rust slice `chunks(2)`: consecutive chunks of two, a final chunk of one
when the length is odd. -/
def chunks2 : List α → List (List α)
  | [] => []
  | [a] => [[a]]
  | a :: b :: rest => [a, b] :: chunks2 rest

/-- Map a fallible function over a list, failing at the first failure.
This models the iterator chain `map(|t| ... .unwrap())`, where the first
chunk that fails to parse aborts the whole computation (a panic, `none`). -/
def mapOpt (f : α → Option β) : List α → Option (List β)
  | [] => some []
  | a :: l =>
    match f a, mapOpt f l with
    | some b, some bs => some (b :: bs)
    | _, _ => none

/-- `struct TreeEntry` (`lib.rs` lines 75–79): mode, name and hash are
Rust `String`s, embedded as character lists. -/
structure TreeEntry where
  mode : List Char
  name : List Char
  hash : List Char
deriving DecidableEq, Repr

/-- `TreeEntry::len_as_bytes` (`lib.rs` lines 82–87):
`self.name.len() + self.mode.len() + 22`. -/
def TreeEntry.len_as_bytes (e : TreeEntry) : Nat :=
  e.name.length + e.mode.length + 22

/-- The hash-to-raw-bytes conversion at the head of `TreeEntry::as_bytes`
(`lib.rs` lines 90–97): the hash string is cut into chunks of two
characters and each chunk goes through `u8::from_str_radix(_, 16).unwrap()`;
a parse failure is the `unwrap` panic, modelled as `none`. -/
def hashToRaw? (hash : List Char) : Option (List Nat) :=
  mapOpt parseU8Radix16 (chunks2 hash)

/-- `TreeEntry::as_bytes` (`lib.rs` lines 89–105):
`[mode, " ", name, "\0", raw hash].concat()`, with `none` for the panic
inside the hash conversion.  Text becomes bytes by code point (exact for
the ASCII data these objects carry). -/
def TreeEntry.as_bytes? (e : TreeEntry) : Option (List Nat) :=
  (hashToRaw? e.hash).map fun raw =>
    e.mode.map Char.toNat ++ [32] ++ e.name.map Char.toNat ++ [0] ++ raw

/-- `as_bytes` with the panic collapsed to an empty buffer; used only where
the surrounding code guarantees a well-formed hash. -/
def TreeEntry.asBytesD (e : TreeEntry) : List Nat :=
  (e.as_bytes?).getD []

/-- `BufRead::read_until(delim)`: the consumed bytes (including the
delimiter when found) and the remainder of the stream. -/
def readUntil (delim : Nat) : List Nat → List Nat × List Nat
  | [] => ([], [])
  | b :: rest =>
    if b = delim then ([b], rest)
    else
      let p := readUntil delim rest
      (b :: p.1, p.2)

/-- `str::split_once(sep)`: the pieces before and after the first
occurrence of the separator, `none` when it does not occur. -/
def splitOnce (sep : Char) : List Char → Option (List Char × List Char)
  | [] => none
  | c :: rest =>
    if c = sep then some ([], rest)
    else (splitOnce sep rest).map fun p => (c :: p.1, p.2)

/-- The hexadecimal digit character for a value below 16, lowercase. -/
def hexDigitChar (d : Nat) : Char :=
  if d < 10 then Char.ofNat (48 + d) else Char.ofNat (87 + d)

/-- Rust `format!` with spec `x` on a `u8` (`lib.rs` line 217): lowercase
hexadecimal with NO zero padding — one digit for bytes below 16. -/
def byteToHexNoPad (b : Nat) : List Char :=
  if b < 16 then [hexDigitChar b] else [hexDigitChar (b / 16), hexDigitChar (b % 16)]

/-- One iteration of the entry loop of `ObjectManipulator::read_tree`
(`lib.rs` lines 209–228): `read_until(0)` for the `mode name\0` field,
`read_exact` of the 20 digest bytes, `split_once(" ")`, the name stripped
of its trailing NUL, and the digest re-rendered through the per-byte
unpadded hex format.  Returns the decoded entry and the remaining bytes. -/
def decodeTreeEntry (bytes : List Nat) : Option (TreeEntry × List Nat) :=
  let p := readUntil 0 bytes
  if p.2.length < 20 then none
  else
    let hashBuf := p.2.take 20
    let rest := p.2.drop 20
    match splitOnce ' ' (p.1.map Char.ofNat) with
    | some mv =>
        some (⟨mv.1, mv.2.dropLast, (hashBuf.map byteToHexNoPad).flatten⟩, rest)
    | none => none

/-! ## ObjectWriter (`lib.rs` lines 14–69)

The writer couples a running digest, a zlib encoder and a named temporary
file.  For the finalisation/drop claims the relevant state is which bytes
of the encoder's output have already reached the temporary file
(`flushedOut`) and which are still buffered inside the encoder and are
written only when the encoder is closed (`pendingOut`) — for a deflate
stream the final block and the checksum always sit in the second part
until `finish` runs. -/

/-- The encoder-side state of an `ObjectWriter` at the moment `finalize`
is entered. -/
structure EncSplit where
  flushedOut : List Nat
  pendingOut : List Nat
deriving DecidableEq, Repr

/-- The complete compressed object: everything the encoder produces once
it has been closed. -/
def EncSplit.fullBytes (e : EncSplit) : List Nat :=
  e.flushedOut ++ e.pendingOut

/-- The steps `ObjectWriter::finalize` (`lib.rs` lines 34–44) performs, in
program order.  The first four are the statements of the function body; the
last two are the implicit drop of the consumed `self` at the end of the
body: `Drop for ObjectWriter` runs (a no-op, `renamed` is already true),
then the fields drop in declaration order, closing the `ZlibEncoder`
(which flushes its buffered deflate state through the still-open file
descriptor) and then the `NamedTempFile` handle.  No statement of the body
closes or flushes the encoder. -/
inductive FinalizeStep where
  | computeHash
  | ensureDir
  | rename
  | setRenamed
  | closeCompressor
  | dropTempHandle
deriving DecidableEq, Repr

/-- The order of events in `ObjectWriter::finalize`, read off the source:
hash formatting (line 35), destination-directory creation (line 38),
`fs::rename` (line 40), `self.renamed = true` (line 41), then the implicit
drop of `self`, which is what closes the compressor. -/
def finalizeSteps : List FinalizeStep :=
  [.computeHash, .ensureDir, .rename, .setRenamed, .closeCompressor, .dropTempHandle]

/-- The bytes sitting at the destination path at the instant `fs::rename`
returns (line 40): exactly the part of the compressed stream the encoder
had already flushed into the temporary file.  The rename moves the inode,
so a concurrent reader of the destination observes this content. -/
def destContentAfterRename (e : EncSplit) : List Nat := e.flushedOut

/-- The bytes at the destination path after the implicit drop of `self`
has closed the encoder: the close writes `pendingOut` through the open
descriptor, which now refers to the renamed inode. -/
def destContentAfterClose (e : EncSplit) : List Nat := e.fullBytes

/-- The fields of `ObjectWriter` relevant to `Drop` (`lib.rs` lines
47–58), together with the two on-disk locations it can see. -/
structure WriterFS where
  temp : Option (List Nat)
  dest : Option (List Nat)
deriving DecidableEq, Repr

/-- `Drop for ObjectWriter` (`lib.rs` lines 47–58): when `renamed` is
false, remove the file at `temp_path` (emitting a diagnostic when the
removal fails, modelled by the returned flag); when `renamed` is true, do
nothing.  The body never names the destination path. -/
def dropObjectWriter (renamed : Bool) (fs : WriterFS) : WriterFS × Bool :=
  if renamed then (fs, false)
  else
    match fs.temp with
    | some _ => ({ fs with temp := none }, false)
    | none => (fs, true)

/-- The `renamed` flag of a writer on which `finalize` has completed the
rename (line 41 sets it immediately after `fs::rename` succeeds). -/
def renamedAfterFinalize : Bool := true

/-! ## Blob operations (`lib.rs` lines 162–193)

Both blob operations digest the same stream; `hash_blob` feeds a bare
hasher, `write_blob` goes through an `ObjectWriter`, whose `Write`
implementation (lines 60–69) updates the hasher with every buffer before
forwarding it to the encoder.  The digest is abstract: `H` maps the
hashed byte stream to its 40-character lowercase hex form. -/

/-- `format!("blob {}\0", size)` as bytes. -/
def blobHeaderBytes (size : Nat) : List Nat :=
  (cs "blob " ++ natChars size).map Char.toNat ++ [0]

/-- The hasher+encoder pair inside an `ObjectWriter`, as far as the blob
pipeline is concerned: the bytes fed to the digest and the bytes handed to
the encoder. -/
structure BlobWriter where
  hashed : List Nat
  streamed : List Nat
deriving DecidableEq, Repr

/-- `ObjectWriter::new` (lines 22–32): fresh hasher, empty temp file. -/
def BlobWriter.new : BlobWriter := ⟨[], []⟩

/-- `Write for ObjectWriter` (lines 65–68): `self.hasher.update(buf)` then
`self.file.write(buf)`. -/
def BlobWriter.writeAll (w : BlobWriter) (buf : List Nat) : BlobWriter :=
  ⟨w.hashed ++ buf, w.streamed ++ buf⟩

/-- The identifier `ObjectWriter::finalize` returns (line 35):
`format!` with spec `x` of the digest of every hashed byte. -/
def BlobWriter.finalizeHex (H : List Nat → List Char) (w : BlobWriter) : List Char :=
  H w.hashed

/-- `ObjectManipulator::hash_blob` (`lib.rs` lines 162–175) on a file whose
stat size and readable contents agree (the file is not mutated during the
call): update the hasher with `"blob {size}\0"`, `io::copy` the contents
into the hasher, fail on a size disparity, return the hex digest. -/
def hash_blob (H : List Nat → List Char) (contents : List Nat) :
    Except (List Char) (List Char) :=
  let hasher : List Nat := []
  let size := contents.length
  let hasher := hasher ++ blobHeaderBytes size
  let hasher := hasher ++ contents
  let copied := contents.length
  if size ≠ copied then
    .error (cs "Disparity between the file size and the number of copied bytes")
  else .ok (H hasher)

/-- `ObjectManipulator::write_blob` (`lib.rs` lines 177–193) on the same
file: open an `ObjectWriter`, `write!` the `"blob {size}\0"` header,
`io::copy` the contents into the writer, fail on a size disparity, then
`finalize` and return the identifier. -/
def write_blob (H : List Nat → List Char) (contents : List Nat) :
    Except (List Char) (List Char) :=
  let w := BlobWriter.new
  let size := contents.length
  let w := w.writeAll (blobHeaderBytes size)
  let w := w.writeAll contents
  let copied := contents.length
  if size ≠ copied then
    .error (cs "Disparity between the file size and the number of copied bytes")
  else .ok (w.finalizeHex H)

/-! ## The child-enumeration loop of `write_tree` (`lib.rs` lines 242–243)

`fs::read_dir` yields an iterator of `Result<DirEntry>`.  The loop is
`while let Some(Ok(entry)) = it.next() { ... }`: an `Ok` item is
processed, but a `Some(Err(_))` item simply fails the pattern and ends the
loop — the error value is discarded and the entries behind it are never
visited. -/

/-- The sequence of children the `while let Some(Ok(entry))` loop actually
processes, given the items the directory iterator yields. -/
def whileLetSomeOk : List (Except ε α) → List α
  | [] => []
  | .ok a :: rest => a :: whileLetSomeOk rest
  | .error _ :: _ => []

/-- The outcome `write_tree` reports for its enumeration phase: the loop
cannot exit with an error — whatever the iterator yields, the function
proceeds with the collected children and returns successfully from this
phase. -/
def writeTreeEnumeration (items : List (Except ε α)) : Except ε (List α) :=
  .ok (whileLetSomeOk items)

/-! ## Commit payload (`lib.rs` lines 112–146) -/

/-- `struct CommitInfo` after `CommitInfo::new` has filled it: the stamp
is the whole-second Unix timestamp. -/
structure CommitInfo where
  tree_sha : List Char
  parent_sha : Option (List Char)
  author_name : List Char
  author_email : List Char
  stamp : Nat
  commit_message : List Char

/-- `Vec::join(sep)`: the elements with the separator between each
adjacent pair. -/
def joinSep (sep : Char) : List (List Char) → List Char
  | [] => []
  | [x] => x
  | x :: rest => x ++ sep :: joinSep sep rest

/-- `CommitInfo::into_string` (`lib.rs` lines 133–145): build the vector
of pieces — the `tree` line, the optional `parent` line, the `author` and
`committer` lines sharing one `"{secs} +0000"` stamp, and the final piece
`"\n{message}\n"` — then join them with newlines. -/
def CommitInfo.into_string (i : CommitInfo) : List Char :=
  let res0 := [cs "tree " ++ i.tree_sha]
  let res1 :=
    match i.parent_sha with
    | some p => res0 ++ [cs "parent " ++ p]
    | none => res0
  let stamp := natChars i.stamp ++ cs " +0000"
  let res2 := res1 ++
    [cs "author " ++ i.author_name ++ cs " <" ++ i.author_email ++ cs "> " ++ stamp]
  let res3 := res2 ++
    [cs "committer " ++ i.author_name ++ cs " <" ++ i.author_email ++ cs "> " ++ stamp]
  let res4 := res3 ++ [['\n'] ++ i.commit_message ++ ['\n']]
  joinSep '\n' res4

/-- Modelled from the spec: the commit payload of §3 — the
newline-separated lines `tree <tree-hex>`, zero or one `parent
<parent-hex>`, `author <name> <<email>> <unix-seconds> +0000`, `committer
<name> <<email>> <unix-seconds> +0000`, an empty line, then the commit
message, followed by a terminating newline. -/
def specCommitPayload (i : CommitInfo) : List Char :=
  cs "tree " ++ i.tree_sha ++ ['\n'] ++
  (match i.parent_sha with
   | some p => cs "parent " ++ p ++ ['\n']
   | none => []) ++
  cs "author " ++ i.author_name ++ cs " <" ++ i.author_email ++ cs "> " ++
    natChars i.stamp ++ cs " +0000" ++ ['\n'] ++
  cs "committer " ++ i.author_name ++ cs " <" ++ i.author_email ++ cs "> " ++
    natChars i.stamp ++ cs " +0000" ++ ['\n'] ++
  ['\n'] ++ i.commit_message ++ ['\n']

/-! ## Filesystem model and `ObjectManipulator::write_tree` (`lib.rs` lines 237–271)

A filesystem subtree: regular files carry their execute-permission bit and
contents, directories carry their children in the order `fs::read_dir`
happens to yield them, and a symbolic link carries its (existing) target.
The `std::fs` accessors the source uses — `Path::is_dir`,
`Path::metadata`, `File::open`, `fs::read_dir` — all traverse symbolic
links, which the model captures with `resolveNode`. -/

inductive FsNode where
  | file (exec : Bool) (contents : List Nat)
  | symlink (target : FsNode)
  | dir (children : List (List Char × FsNode))

/-- A node after symbolic-link traversal: what the link-following
`std::fs` accessors observe. -/
inductive Resolved where
  | rfile (exec : Bool) (contents : List Nat)
  | rdir (children : List (List Char × FsNode))

/-- Follow symbolic links down to the underlying file or directory. -/
def resolveNode : FsNode → Resolved
  | .file e c => .rfile e c
  | .symlink t => resolveNode t
  | .dir ch => .rdir ch

/-- The file-type field of a `Metadata`. -/
inductive FileKind where
  | dir
  | symlink
  | regular
deriving DecidableEq, Repr

/-- The parts of `std::fs::Metadata` the mode computation reads:
`file_type()` and whether `permissions().mode() & 0o111` is non-zero. -/
structure Metadata where
  fileType : FileKind
  anyExecBit : Bool
deriving DecidableEq, Repr

/-- `entry_path.metadata()` (`lib.rs` line 255): `Path::metadata` is
documented to traverse symbolic links, so the returned file type is that
of the resolved target and is never `symlink` for a non-dangling link. -/
def metadataOf (n : FsNode) : Metadata :=
  match resolveNode n with
  | .rdir _ => ⟨.dir, false⟩
  | .rfile e _ => ⟨.regular, e⟩

/-- The mode-string selection of `write_tree` (`lib.rs` lines 257–262),
branch for branch: directory, symlink, any execute bit, plain file. -/
def modeString (m : Metadata) : List Char :=
  if m.fileType = FileKind.dir then cs "40000"
  else if m.fileType = FileKind.symlink then cs "120000"
  else if m.anyExecBit then cs "100755"
  else cs "100644"

/-- The object identifier `write_blob` computes and returns for a file
with the given contents: the digest of `"blob {size}\0"` followed by the
contents. -/
def blobIdOf (H : List Nat → List Char) (contents : List Nat) : List Char :=
  H (blobHeaderBytes contents.length ++ contents)

/-- Byte-lexicographic comparison of names, the order `Vec::sort_by_key`
uses on `String` keys (`lib.rs` line 265). -/
def nameLe : List Char → List Char → Bool
  | [], _ => true
  | _ :: _, [] => false
  | a :: as, b :: bs => if a = b then nameLe as bs else decide (a < b)

/-- The sort relation of `contents.sort_by_key(|te| te.name.clone())`. -/
def entryLe (x y : TreeEntry) : Prop := nameLe x.name y.name = true

instance : DecidableRel entryLe := fun x y => by
  unfold entryLe; infer_instance

/-- `"tree {payload}\0"` followed by each entry's encoding, as
`write_tree` streams it (`lib.rs` lines 266–269): the announced payload
length is the sum of `len_as_bytes` over the entries. -/
def treeObjBytes (entries : List TreeEntry) : List Nat :=
  (cs "tree " ++ natChars ((entries.map TreeEntry.len_as_bytes).sum)).map Char.toNat
    ++ [0] ++ (entries.map TreeEntry.asBytesD).flatten

theorem sizeOf_snd_lt (p : List Char × FsNode) : sizeOf p.2 < sizeOf p := by
  cases p with
  | mk a b => simp only [Prod.mk.sizeOf_spec]; omega

theorem sizeOf_resolved_children :
    ∀ (n : FsNode) (ch : List (List Char × FsNode)),
      resolveNode n = .rdir ch → sizeOf ch < sizeOf n
  | .file _ _, _, h => by simp [resolveNode] at h
  | .symlink t, ch, h => by
      have ih := sizeOf_resolved_children t ch (by simpa [resolveNode] using h)
      simp only [FsNode.symlink.sizeOf_spec]
      omega
  | .dir ch2, ch, h => by
      simp only [resolveNode, Resolved.rdir.injEq] at h
      subst h
      simp only [FsNode.dir.sizeOf_spec]
      omega

mutual

/-- The object identifier the source computes for one directory child at
`path`: `write_tree` recurses when `entry_path.is_dir()` (which follows
symbolic links), otherwise the child is written as a blob of the bytes
`File::open` (which also follows links) reads. -/
def nodeHash (H : List Nat → List Char) (keep : List (List Char) → Bool)
    (path : List (List Char)) : FsNode → List Char
  | .file _ c => blobIdOf H c
  | .symlink t => nodeHash H keep path t
  | .dir ch =>
      H (treeObjBytes (List.insertionSort entryLe (dirEntries H keep path ch)))
termination_by n => sizeOf n
decreasing_by
  all_goals simp_wf

/-- The `contents` vector `write_tree` accumulates (`lib.rs` lines
240–264), one loop iteration per list element: a child failing the filter
is skipped (`continue`); a retained child contributes one `TreeEntry` with
the mode chosen from its link-following metadata, the name its final path
component, and the hash of its recursively written object. -/
def dirEntries (H : List Nat → List Char) (keep : List (List Char) → Bool)
    (path : List (List Char)) : List (List Char × FsNode) → List TreeEntry
  | [] => []
  | c :: rest =>
      if keep (path ++ [c.1]) then
        ⟨modeString (metadataOf c.2), c.1, nodeHash H keep (path ++ [c.1]) c.2⟩
          :: dirEntries H keep path rest
      else dirEntries H keep path rest
termination_by ch => sizeOf ch
decreasing_by
  · simp_wf
    have h2 : sizeOf c.2 < sizeOf c := sizeOf_snd_lt c
    omega
  · simp_wf
  · simp_wf

end

/-- `ObjectManipulator::write_tree` on the directory at a given path,
returning the hex identifier of the tree object it writes. -/
def write_tree (H : List Nat → List Char) (keep : List (List Char) → Bool)
    (root : FsNode) : List Char :=
  nodeHash H keep [] root

/-! ## Identifier resolution (`lib.rs` lines 296–327)

The object store on disk is modelled by the list of full 40-character
identifiers it holds: the file for identifier `id` lives in directory
`objects/<id.take 2>` under filename `id.drop 2`.  `fs::read_dir` on an
absent directory fails; in the model a directory exists exactly when some
stored identifier begins with its two characters. -/

/-- `valid_partial_sha1_name` (`lib.rs` lines 296–302): length strictly
between 3 and 41, characters from `0-9` and `a-z`. -/
def valid_partial_sha1_name (name : List Char) : Bool :=
  decide (name.length > 3) && decide (name.length < 41) && name.all isLowerAlnum

/-- The filenames `fs::read_dir` lists inside `objects/<d>`. -/
def storedFilesIn (store : List (List Char)) (d : List Char) : List (List Char) :=
  (store.filter fun i => decide (i.take 2 = d)).map fun i => i.drop 2

/-- `get_object_path` (`lib.rs` lines 304–327): lowercase the input,
validate it, split off the first two characters as the directory prefix,
list that directory (an absent directory is an `fs::read_dir` error), keep
the filenames that start with the remainder, fail unless exactly one
candidate remains, and return the path of the popped (last) candidate. -/
def get_object_path (store : List (List Char)) (object : List Char) :
    Except (List Char) (List Char) :=
  let object := object.map Char.toLower
  if !valid_partial_sha1_name object then
    .error (cs "Not a valid object name " ++ object)
  else
    let pre := object.take 2
    let rest := object.drop 2
    let files := storedFilesIn store pre
    if files.isEmpty then
      .error (cs "No such file or directory")
    else
      let candidates := files.filter fun f => rest.isPrefixOf f
      if candidates.length ≠ 1 then
        .error (cs "Not a valid object name " ++ object)
      else
        match candidates.getLast? with
        | some f => .ok (cs ".git/objects/" ++ pre ++ ['/'] ++ f)
        | none => .error (cs "Not a valid object name " ++ object)

/-- How many stored objects match the query: stored full identifiers that
the lowercased query string is a prefix of. -/
def matchCount (store : List (List Char)) (object : List Char) : Nat :=
  (store.filter fun i => (object.map Char.toLower).isPrefixOf i).length

/-- A well-formed object store: every identifier is 40 lowercase
hexadecimal characters and no identifier occurs twice. -/
def wellFormedStore (store : List (List Char)) : Prop :=
  (∀ i ∈ store, i.length = 40 ∧ i.all isLowerHex = true) ∧ store.Nodup

/-! ## Identical filesystem state up to enumeration order -/

/-- Two filesystem states that differ only in the order in which directory
enumeration yields children: files and links agree exactly, and every
directory holds the same uniquely named children, possibly permuted.  The
name sets of a real directory listing are unique, which the relation
records on the left-hand children. -/
def FsEquiv : FsNode → FsNode → Prop
  | .file e c, .file f d => e = f ∧ c = d
  | .symlink t, .symlink u => FsEquiv t u
  | .dir ch1, .dir ch2 =>
      (ch1.map Prod.fst).Nodup ∧
      ∃ mid : List (List Char × FsNode), mid.Perm ch2 ∧ ch1.length = mid.length ∧
        ∀ i : Nat, ∀ h1 : i < ch1.length, ∀ h2 : i < mid.length,
          (ch1.get ⟨i, h1⟩).1 = (mid.get ⟨i, h2⟩).1 ∧
          FsEquiv (ch1.get ⟨i, h1⟩).2 (mid.get ⟨i, h2⟩).2
  | _, _ => False
termination_by n _ => sizeOf n
decreasing_by
  · simp_wf
  · simp_wf
    have hmem : ch1.get ⟨i, h1⟩ ∈ ch1 := List.get_mem ch1 i h1
    have hs1 : sizeOf (ch1.get ⟨i, h1⟩) < sizeOf ch1 := List.sizeOf_lt_of_mem hmem
    have hs2 : sizeOf (ch1.get ⟨i, h1⟩).2 < sizeOf (ch1.get ⟨i, h1⟩) :=
      sizeOf_snd_lt _
    simp only [List.get_eq_getElem] at hs1 hs2
    simp only [FsNode.dir.sizeOf_spec] at *
    omega

/-! # Claim theorems -/

/-- C1 (code bug): `ObjectWriter::finalize` renames the temporary file
BEFORE the compressor is closed — the `fs::rename` of line 40 appears
strictly earlier in the function's event order than the encoder close,
which only happens in the implicit drop of `self`; consequently, at the
instant the destination becomes visible it holds only the flushed part of
the compressed stream, not the full object (here a writer whose encoder
still buffers the byte `3`). -/
theorem c1_finalize_renames_before_closing_compressor :
    List.indexOf FinalizeStep.rename finalizeSteps <
      List.indexOf FinalizeStep.closeCompressor finalizeSteps ∧
    FinalizeStep.closeCompressor ∉ finalizeSteps.take 4 ∧
    destContentAfterRename ⟨[1, 2], [3]⟩ ≠ destContentAfterClose ⟨[1, 2], [3]⟩ := by
  decide

/-- The tree entry exhibiting the hex-decoding defect: a valid entry whose
40-character lowercase hex digest has every byte equal to `0x0a`. -/
def entry0a : TreeEntry :=
  ⟨cs "100644", cs "a", cs "0a0a0a0a0a0a0a0a0a0a0a0a0a0a0a0a0a0a0a0a"⟩

/-- C2 (code bug): encoding `entry0a` with `as_bytes` and decoding the
result with `read_tree`'s entry decoder does NOT recover the original
triple — the per-byte unpadded hex rendering drops the leading zero of
every digest byte below `0x10`, returning a 20-character hash. -/
theorem c2_roundtrip_loses_leading_zeros :
    decodeTreeEntry (TreeEntry.asBytesD entry0a) =
      some (⟨cs "100644", cs "a", cs "aaaaaaaaaaaaaaaaaaaa"⟩, []) ∧
    cs "aaaaaaaaaaaaaaaaaaaa" ≠ entry0a.hash := by
  decide

/-- C4 (code bug): a directory iterator that yields `Ok(1)`, then an
error, then `Ok(2)` makes the `while let Some(Ok(entry))` enumeration of
`write_tree` stop silently: the phase reports success with only the first
child, surfacing no error to the caller. -/
theorem c4_write_tree_swallows_enumeration_error :
    writeTreeEnumeration [Except.ok 1, Except.error (cs "io error"), Except.ok 2] =
      Except.ok [1] ∧
    whileLetSomeOk [Except.ok 1, Except.error (cs "io error"), Except.ok 2] ≠
      ([1, 2] : List Nat) := by
  constructor
  · rfl
  · decide

/-- C5 (confirmed): for a file whose contents are unchanged between the
two calls, `write_blob` — which streams the same header and contents
through an `ObjectWriter` — returns exactly the identifier `hash_blob`
computes without persisting, for every digest function. -/
theorem c5_write_blob_agrees_with_hash_blob (H : List Nat → List Char)
    (contents : List Nat) :
    write_blob H contents = hash_blob H contents := by
  simp [write_blob, hash_blob, BlobWriter.new, BlobWriter.writeAll,
    BlobWriter.finalizeHex]

/-- C7 (confirmed): dropping an `ObjectWriter` whose `finalize` did not
succeed removes the temporary file and touches nothing else, emitting a
diagnostic exactly when the removal fails; dropping after a completed
rename (the flag `finalize` sets on line 41) leaves the filesystem
untouched and prints nothing. -/
theorem c7_object_writer_drop (renamed : Bool) (fs : WriterFS) :
    (renamed = false →
      (dropObjectWriter renamed fs).1.temp = none ∧
      (dropObjectWriter renamed fs).1.dest = fs.dest ∧
      ((dropObjectWriter renamed fs).2 = true ↔ fs.temp = none)) ∧
    (renamed = true → dropObjectWriter renamed fs = (fs, false)) ∧
    dropObjectWriter renamedAfterFinalize fs = (fs, false) := by
  cases renamed <;> rcases fs with ⟨t, d⟩ <;> cases t <;>
    simp [dropObjectWriter, renamedAfterFinalize]

/-- Witness for C7 at a concrete writer and filesystem. -/
theorem c7_object_writer_drop_witness :
    ((dropObjectWriter false ⟨some [1], some [2]⟩).1.temp = none ∧
      (dropObjectWriter false ⟨some [1], some [2]⟩).1.dest = some [2]) ∧
    dropObjectWriter true ⟨some [1], some [2]⟩ = (⟨some [1], some [2]⟩, false) := by
  refine ⟨⟨((c7_object_writer_drop false ⟨some [1], some [2]⟩).1 rfl).1,
    ((c7_object_writer_drop false ⟨some [1], some [2]⟩).1 rfl).2.1⟩,
    (c7_object_writer_drop true ⟨some [1], some [2]⟩).2.1 rfl⟩

/-- The directory listing for the symlink-mode claim: a single child named
`ln`, a symbolic link to a non-executable regular file. -/
def symlinkDirListing : List (List Char × FsNode) :=
  [(cs "ln", FsNode.symlink (FsNode.file false [104, 105]))]

/-- C3 (code bug): the tree entry `write_tree` records for a retained
symbolic-link child does NOT carry mode `120000`: `Path::metadata` follows
the link, so the recorded mode is the target's — here `100644` for a link
to a non-executable regular file — and the `is_symlink` branch of the mode
selection can never fire. -/
theorem c3_symlink_child_mode_not_120000 (H : List Nat → List Char) :
    (dirEntries H (fun _ => true) [] symlinkDirListing).map TreeEntry.mode =
      [cs "100644"] ∧ cs "100644" ≠ cs "120000" := by
  constructor
  · simp [dirEntries, symlinkDirListing, metadataOf, resolveNode, modeString]
  · decide

/-- C8 (confirmed): `CommitInfo::into_string` produces exactly the payload
the specification describes — `tree`, optional `parent`, `author`,
`committer`, an empty line, the message, a terminating newline — for every
field assignment. -/
theorem c8_commit_payload_format (i : CommitInfo) :
    i.into_string = specCommitPayload i := by
  rcases i with ⟨t, p, n, e, s, m⟩
  cases p <;>
    simp [CommitInfo.into_string, specCommitPayload, joinSep]

/-! ## Helper lemmas for `as_bytes` totality -/

theorem hexDigitVal_isLowerHex {c : Char} (h : isLowerHex c = true) :
    ∃ d, hexDigitVal? c = some d ∧ d ≤ 15 := by
  simp only [isLowerHex, Bool.or_eq_true, Bool.and_eq_true, decide_eq_true_eq] at h
  unfold hexDigitVal?
  split_ifs with h1 h2 h3
  · exact ⟨c.toNat - 48, rfl, by omega⟩
  · exact ⟨c.toNat - 87, rfl, by omega⟩
  · exact ⟨c.toNat - 55, rfl, by omega⟩
  · omega

theorem isLowerHex_ne_sign {c : Char} (h : isLowerHex c = true) :
    c ≠ '+' ∧ c ≠ '-' := by
  constructor <;> rintro rfl <;> exact absurd h (by decide)

/-- A two-character chunk of lowercase hex digits always parses, to a
value below 256. -/
theorem parseU8Radix16_hex_pair {a b : Char} (ha : isLowerHex a = true)
    (hb : isLowerHex b = true) :
    ∃ da db, hexDigitVal? a = some da ∧ hexDigitVal? b = some db ∧
      parseU8Radix16 [a, b] = some (da * 16 + db) := by
  obtain ⟨da, hda, hda15⟩ := hexDigitVal_isLowerHex ha
  obtain ⟨db, hdb, hdb15⟩ := hexDigitVal_isLowerHex hb
  obtain ⟨hap, ham⟩ := isLowerHex_ne_sign ha
  refine ⟨da, db, hda, hdb, ?_⟩
  have h1 : 0 * 16 < 256 := by norm_num
  have h2 : 0 * 16 + da < 256 := by omega
  have h3 : da * 16 < 256 := by omega
  have h4 : da * 16 + db < 256 := by omega
  have h5 : da < 256 := by omega
  simp [parseU8Radix16, if_neg hap, if_neg ham, parseStep, hda, hdb, h1, h2,
    h3, h4, h5]

/-- Parsing every chunk of an even-length lowercase-hex string succeeds
and yields one byte per chunk. -/
theorem chunks2_parse_all :
    ∀ (n : Nat) (s : List Char), s.length = 2 * n →
      (∀ c ∈ s, isLowerHex c = true) →
      ∃ raw : List Nat, mapOpt parseU8Radix16 (chunks2 s) = some raw ∧
        raw.length = n
  | 0, s, hlen, _ => by
      have hs : s = [] := List.length_eq_zero.mp (by omega)
      subst hs
      exact ⟨[], rfl, rfl⟩
  | n + 1, s, hlen, hhex => by
      rcases s with _ | ⟨a, s1⟩
      · simp at hlen
      rcases s1 with _ | ⟨b, s2⟩
      · simp only [List.length_cons, List.length_nil] at hlen
        omega
      ·
        have ha : isLowerHex a = true := hhex a (by simp)
        have hb : isLowerHex b = true := hhex b (by simp)
        obtain ⟨da, db, _, _, hparse⟩ := parseU8Radix16_hex_pair ha hb
        have hlen2 : s2.length = 2 * n := by
          simp only [List.length_cons] at hlen
          omega
        obtain ⟨raw2, hmap2, hlen2b⟩ := chunks2_parse_all n s2 hlen2
          (fun c hc => hhex c (by simp [hc]))
        refine ⟨(da * 16 + db) :: raw2, ?_, by simp [hlen2b]⟩
        simp [chunks2, mapOpt, hparse, hmap2]

/-- `mapOpt` fails exactly when the function fails on some element. -/
theorem mapOpt_eq_none_iff (f : α → Option β) :
    ∀ l : List α, mapOpt f l = none ↔ ∃ x ∈ l, f x = none
  | [] => by simp [mapOpt]
  | a :: l => by
      rw [mapOpt]
      cases hfa : f a with
      | none => simp [hfa]
      | some b =>
        cases hml : mapOpt f l with
        | none =>
            simp only [hfa, hml]
            constructor
            · intro _
              obtain ⟨x, hx, hfx⟩ := (mapOpt_eq_none_iff f l).mp hml
              exact ⟨x, List.mem_cons_of_mem a hx, hfx⟩
            · intro _
              trivial
        | some bs =>
            simp only [hfa, hml]
            constructor
            · intro h
              cases h
            · rintro ⟨x, hx, hfx⟩
              rcases List.mem_cons.mp hx with rfl | hx2
              · rw [hfa] at hfx
                cases hfx
              · have hcontra := (mapOpt_eq_none_iff f l).mpr ⟨x, hx2, hfx⟩
                rw [hml] at hcontra
                cases hcontra

/-- The entry whose hash chunks all carry a leading plus sign, characters
that are not hexadecimal digits. -/
def entryPlus : TreeEntry :=
  ⟨cs "100644", cs "a", cs "+1+1+1+1+1+1+1+1+1+1+1+1+1+1+1+1+1+1+1+1"⟩

/-- C10 counterexample: `entryPlus`'s hash contains characters that are
not hexadecimal, yet `as_bytes` does NOT panic — `u8::from_str_radix`
accepts a chunk-leading sign, so the claim's panic condition ("any
non-hexadecimal character") is not the code's. -/
theorem c10_nonhex_hash_need_not_panic :
    (entryPlus.hash.all isHexChar) = false ∧
    TreeEntry.as_bytes? entryPlus ≠ none := by
  decide

/-- C10 (amended): on an entry whose hash is 40 lowercase hex characters,
`as_bytes` returns exactly the `len_as_bytes`-byte layout — mode bytes,
one space, name bytes, one NUL, 20 raw digest bytes; and it panics (via
`unwrap`) precisely when some two-character chunk of the hash is rejected
by `u8::from_str_radix(_, 16)` — a condition that also admits signed
chunks such as `"+1"`, not merely hexadecimal ones. -/
theorem c10_as_bytes_totality (e : TreeEntry) :
    (e.hash.length = 40 → (∀ c ∈ e.hash, isLowerHex c = true) →
      ∃ raw : List Nat, raw.length = 20 ∧
        TreeEntry.as_bytes? e =
          some (e.mode.map Char.toNat ++ [32] ++ e.name.map Char.toNat ++
            [0] ++ raw) ∧
        (e.mode.map Char.toNat ++ [32] ++ e.name.map Char.toNat ++
          [0] ++ raw).length = e.len_as_bytes) ∧
    (TreeEntry.as_bytes? e = none ↔
      ∃ chunk ∈ chunks2 e.hash, parseU8Radix16 chunk = none) := by
  constructor
  · intro hlen hhex
    obtain ⟨raw, hmap, hrawlen⟩ := chunks2_parse_all 20 e.hash (by omega) hhex
    refine ⟨raw, hrawlen, ?_, ?_⟩
    · simp [TreeEntry.as_bytes?, hashToRaw?, hmap]
    · simp only [List.length_append, List.length_map, List.length_cons,
        List.length_nil, TreeEntry.len_as_bytes]
      omega
  · rw [show (TreeEntry.as_bytes? e = none) ↔ (hashToRaw? e.hash = none) by
      simp [TreeEntry.as_bytes?]]
    exact mapOpt_eq_none_iff _ _

/-- Witness for C10 at the concrete entry `entry0a` (40 lowercase hex
characters) and at `entryPlus` through the panic characterisation. -/
theorem c10_as_bytes_totality_witness :
    (∃ raw : List Nat, raw.length = 20 ∧
      TreeEntry.as_bytes? entry0a =
        some (entry0a.mode.map Char.toNat ++ [32] ++
          entry0a.name.map Char.toNat ++ [0] ++ raw) ∧
      (entry0a.mode.map Char.toNat ++ [32] ++ entry0a.name.map Char.toNat ++
        [0] ++ raw).length = entry0a.len_as_bytes) ∧
    (TreeEntry.as_bytes? entryPlus = none ↔
      ∃ chunk ∈ chunks2 entryPlus.hash, parseU8Radix16 chunk = none) :=
  ⟨(c10_as_bytes_totality entry0a).1 (by decide) (by decide),
   (c10_as_bytes_totality entryPlus).2⟩

/-! ## Lemmas for prefix resolution -/

theorem isLowerHex_isLowerAlnum {c : Char} (h : isLowerHex c = true) :
    isLowerAlnum c = true := by
  simp only [isLowerHex, isLowerAlnum, Bool.or_eq_true, Bool.and_eq_true,
    decide_eq_true_eq] at h ⊢
  omega

theorem toLower_fixed {c : Char} (h : isLowerAlnum c = true) :
    Char.toLower c = c := by
  simp only [isLowerAlnum, Bool.or_eq_true, Bool.and_eq_true,
    decide_eq_true_eq] at h
  simp only [Char.toLower]
  rw [if_neg]
  omega

theorem map_toLower_id {l : List Char} (h : ∀ c ∈ l, isLowerAlnum c = true) :
    l.map Char.toLower = l := by
  induction l with
  | nil => rfl
  | cons a t ih =>
      simp only [List.map_cons]
      rw [toLower_fixed (h a (by simp)), ih fun c hc => h c (by simp [hc])]

/-- A prefix test splits at position two when both strings reach it. -/
theorem isPrefixOf_split2 {o i : List Char} (ho : 2 ≤ o.length)
    (hi : 2 ≤ i.length) :
    (o.isPrefixOf i = true) ↔
      (i.take 2 = o.take 2 ∧ (o.drop 2).isPrefixOf (i.drop 2) = true) := by
  rcases o with _ | ⟨a, _ | ⟨b, o2⟩⟩
  · simp at ho
  · simp at ho
  rcases i with _ | ⟨x, _ | ⟨y, i2⟩⟩
  · simp at hi
  · simp at hi
  have ht1 : List.take 2 (x :: y :: i2) = [x, y] := rfl
  have ht2 : List.take 2 (a :: b :: o2) = [a, b] := rfl
  have hd1 : List.drop 2 (x :: y :: i2) = i2 := rfl
  have hd2 : List.drop 2 (a :: b :: o2) = o2 := rfl
  rw [ht1, ht2, hd1, hd2]
  simp only [ List.isPrefixOf, Bool.and_eq_true, beq_iff_eq, List.cons.injEq,
    and_true]
  tauto

/-- The candidate count of the resolver's directory scan equals the number
of stored identifiers extending the query. -/
theorem candidates_length {store : List (List Char)}
    (hwf : wellFormedStore store) {o : List Char} (ho : 4 ≤ o.length) :
    ((storedFilesIn store (o.take 2)).filter fun f =>
        (o.drop 2).isPrefixOf f).length =
      (store.filter fun i => o.isPrefixOf i).length := by
  unfold storedFilesIn
  rw [List.filter_map, List.length_map, List.filter_filter]
  apply congrArg List.length
  apply List.filter_congr
  intro i hi
  have hilen : i.length = 40 := (hwf.1 i hi).1
  have hsplit := isPrefixOf_split2 (show 2 ≤ o.length by omega)
    (show 2 ≤ i.length by omega)
  rw [Bool.eq_iff_iff]
  simp only [Function.comp, Bool.and_eq_true, decide_eq_true_eq]
  rw [hsplit]
  tauto

/-- On a duplicate-free list containing `a`, filtering for equality with
`a` leaves exactly `[a]`. -/
theorem filter_eq_singleton_of_nodup {α : Type} [DecidableEq α]
    {l : List α} {a : α} (hnd : l.Nodup) (hm : a ∈ l) :
    (l.filter fun i => decide (i = a)) = [a] := by
  induction l with
  | nil => cases hm
  | cons b t ih =>
      have hnd2 := List.nodup_cons.mp hnd
      rcases List.mem_cons.mp hm with rfl | hmt
      · simp only [List.filter_cons, decide_eq_true_eq]
        rw [if_pos trivial]
        have hnil : (t.filter fun i => decide (i = a)) = [] := by
          apply List.filter_eq_nil_iff.mpr
          intro x hx
          simp only [decide_eq_true_eq]
          rintro rfl
          exact hnd2.1 hx
        rw [hnil]
      · have hba : ¬ b = a := fun h => hnd2.1 (h ▸ hmt)
        simp only [List.filter_cons, decide_eq_true_eq]
        rw [if_neg hba]
        exact ih hnd2.2 hmt

/-- A stored full identifier matches itself alone. -/
theorem filter_full_id {store : List (List Char)} {Hid : List Char}
    (hwf : wellFormedStore store) (hm : Hid ∈ store) :
    (store.filter fun i => Hid.isPrefixOf i) = [Hid] := by
  have hlenH : Hid.length = 40 := (hwf.1 Hid hm).1
  have hfe : (store.filter fun i => Hid.isPrefixOf i) =
      store.filter fun i => decide (i = Hid) := by
    apply List.filter_congr
    intro i hi
    have hlen : i.length = 40 := (hwf.1 i hi).1
    rw [Bool.eq_iff_iff, List.isPrefixOf_iff_prefix]
    simp only [decide_eq_true_eq]
    constructor
    · intro hp
      exact (hp.eq_of_length (by omega)).symm
    · rintro rfl
      exact List.prefix_refl _
  rw [hfe]
  exact filter_eq_singleton_of_nodup hwf.2 hm

/-- When validation passes and the directory scan leaves exactly one
candidate, the resolver returns that candidate's path. -/
theorem get_object_path_resolves {store : List (List Char)} {o : List Char}
    (hlower : o.map Char.toLower = o)
    (hvalid : valid_partial_sha1_name o = true)
    {f : List Char}
    (hcand : ((storedFilesIn store (o.take 2)).filter fun x =>
        (o.drop 2).isPrefixOf x) = [f]) :
    get_object_path store o =
      .ok (cs ".git/objects/" ++ o.take 2 ++ ['/'] ++ f) := by
  have hfmem : f ∈ storedFilesIn store (o.take 2) := by
    have hf2 : f ∈ (storedFilesIn store (o.take 2)).filter fun x =>
        (o.drop 2).isPrefixOf x := by
      rw [hcand]
      simp
    exact List.mem_of_mem_filter hf2
  have hne : (storedFilesIn store (o.take 2)).isEmpty = false := by
    cases hsf : storedFilesIn store (o.take 2)
    · rw [hsf] at hfmem
      simp at hfmem
    · rfl
  simp only [get_object_path]
  rw [hlower, hvalid]
  simp only [Bool.not_true, Bool.false_eq_true, if_false, hne, hcand,
    List.length_cons, List.length_nil]
  rw [if_neg (by omega)]
  rfl

/-- C6 (confirmed): on a well-formed store, prefix resolution fails with
an error whenever the number of stored objects matching the (lowercased)
query is not exactly one; and for a stored full identifier `Hid` with a
unique stored prefix `P` of length at least 4, resolving `P` yields the
same path as resolving `Hid`. -/
theorem c6_prefix_resolution (store : List (List Char)) :
    (∀ o : List Char, wellFormedStore store → matchCount store o ≠ 1 →
      ∃ msg, get_object_path store o = .error msg) ∧
    (∀ Hid P : List Char, wellFormedStore store → Hid ∈ store →
      4 ≤ P.length → P <+: Hid → matchCount store P = 1 →
      get_object_path store P = get_object_path store Hid) := by
  constructor
  · intro o hwf hmc
    simp only [get_object_path]
    by_cases hv : valid_partial_sha1_name (o.map Char.toLower) = true
    · have h4 : 4 ≤ (o.map Char.toLower).length := by
        simp only [valid_partial_sha1_name, Bool.and_eq_true,
          decide_eq_true_eq] at hv
        omega
      rw [hv]
      simp only [Bool.not_true, Bool.false_eq_true, if_false]
      by_cases hemp :
          (storedFilesIn store ((o.map Char.toLower).take 2)).isEmpty = true
      · rw [if_pos hemp]
        exact ⟨_, rfl⟩
      · rw [if_neg hemp]
        have hmc2 : ((storedFilesIn store ((o.map Char.toLower).take 2)).filter
            fun f => ((o.map Char.toLower).drop 2).isPrefixOf f).length ≠ 1 := by
          rw [candidates_length hwf h4]
          exact hmc
        rw [if_pos hmc2]
        exact ⟨_, rfl⟩
    · rw [if_pos]
      · exact ⟨_, rfl⟩
      · simp only [Bool.not_eq_true] at hv ⊢
        simp [hv]
  · intro Hid P hwf hm hP4 hPpre hm1
    obtain ⟨t, ht⟩ := hPpre
    have hH40 : Hid.length = 40 := (hwf.1 Hid hm).1
    have hHhex : ∀ c ∈ Hid, isLowerHex c = true := by
      intro c hc
      exact List.all_eq_true.mp (hwf.1 Hid hm).2 c hc
    have hPsub : ∀ c ∈ P, c ∈ Hid := by
      intro c hc
      rw [← ht]
      exact List.mem_append_left t hc
    have hPhex : ∀ c ∈ P, isLowerHex c = true := fun c hc => hHhex c (hPsub c hc)
    have hPlen40 : P.length ≤ 40 := by
      have hsum : P.length + t.length = 40 := by
        rw [← hH40, ← ht]
        simp
      omega
    have hHl : Hid.map Char.toLower = Hid :=
      map_toLower_id fun c hc => isLowerHex_isLowerAlnum (hHhex c hc)
    have hPl : P.map Char.toLower = P :=
      map_toLower_id fun c hc => isLowerHex_isLowerAlnum (hPhex c hc)
    have hvalidH : valid_partial_sha1_name Hid = true := by
      simp only [valid_partial_sha1_name, Bool.and_eq_true, decide_eq_true_eq,
        List.all_eq_true]
      exact ⟨⟨by omega, by omega⟩, fun c hc => isLowerHex_isLowerAlnum (hHhex c hc)⟩
    have hvalidP : valid_partial_sha1_name P = true := by
      simp only [valid_partial_sha1_name, Bool.and_eq_true, decide_eq_true_eq,
        List.all_eq_true]
      exact ⟨⟨by omega, by omega⟩, fun c hc => isLowerHex_isLowerAlnum (hPhex c hc)⟩
    have htake : Hid.take 2 = P.take 2 := by
      rw [← ht, List.take_append_eq_append_take]
      have hz : 2 - P.length = 0 := by omega
      rw [hz]
      simp
    have hdropP : Hid.drop 2 = P.drop 2 ++ t := by
      rw [← ht, List.drop_append_eq_append_drop]
      have hz : 2 - P.length = 0 := by omega
      rw [hz]
      simp
    have hcandH : ((storedFilesIn store (Hid.take 2)).filter fun x =>
        (Hid.drop 2).isPrefixOf x) = [Hid.drop 2] := by
      have hlen1 : ((storedFilesIn store (Hid.take 2)).filter fun x =>
          (Hid.drop 2).isPrefixOf x).length = 1 := by
        rw [candidates_length hwf (by omega), filter_full_id hwf hm]
        rfl
      have hmemd : Hid.drop 2 ∈ (storedFilesIn store (Hid.take 2)).filter
          fun x => (Hid.drop 2).isPrefixOf x := by
        apply List.mem_filter.mpr
        refine ⟨List.mem_map.mpr ⟨Hid, List.mem_filter.mpr ⟨hm, by simp⟩, rfl⟩, ?_⟩
        rw [ List.isPrefixOf_iff_prefix]
      obtain ⟨a, ha⟩ := List.length_eq_one.mp hlen1
      rw [ha] at hmemd ⊢
      have hae : Hid.drop 2 = a := by simpa using hmemd
      rw [hae]
    have hcandP : ((storedFilesIn store (P.take 2)).filter fun x =>
        (P.drop 2).isPrefixOf x) = [Hid.drop 2] := by
      have hlen1 : ((storedFilesIn store (P.take 2)).filter fun x =>
          (P.drop 2).isPrefixOf x).length = 1 := by
        rw [candidates_length hwf hP4]
        have hmc : matchCount store P =
            (store.filter fun i => P.isPrefixOf i).length := by
          unfold matchCount
          rw [hPl]
        rw [← hmc]
        exact hm1
      have hmemd : Hid.drop 2 ∈ (storedFilesIn store (P.take 2)).filter
          fun x => (P.drop 2).isPrefixOf x := by
        apply List.mem_filter.mpr
        refine ⟨List.mem_map.mpr ⟨Hid, List.mem_filter.mpr ⟨hm, by simp [htake]⟩,
          rfl⟩, ?_⟩
        rw [ List.isPrefixOf_iff_prefix, hdropP]
        exact List.prefix_append _ _
      obtain ⟨a, ha⟩ := List.length_eq_one.mp hlen1
      rw [ha] at hmemd ⊢
      have hae : Hid.drop 2 = a := by simpa using hmemd
      rw [hae]
    rw [get_object_path_resolves hPl hvalidP hcandP,
      get_object_path_resolves hHl hvalidH hcandH, htake]

/-- A concrete two-object store for the resolution witness. -/
def witnessStore : List (List Char) :=
  [cs "aaaaaaaaaaaaaaaaaaaaaaaaaaaaaaaaaaaaaaaa",
   cs "abbbbbbbbbbbbbbbbbbbbbbbbbbbbbbbbbbbbbbb"]

/-- Witness for C6: on the concrete store, an unmatched query errors, and
the unique 4-character prefix `abbb` resolves to the same path as the full
second identifier. -/
theorem c6_prefix_resolution_witness :
    (∃ msg, get_object_path witnessStore (cs "zzzz") = .error msg) ∧
    get_object_path witnessStore (cs "abbb") =
      get_object_path witnessStore
        (cs "abbbbbbbbbbbbbbbbbbbbbbbbbbbbbbbbbbbbbbb") :=
  ⟨(c6_prefix_resolution witnessStore).1 (cs "zzzz") ⟨by decide, by decide⟩
     (by decide),
   (c6_prefix_resolution witnessStore).2
     (cs "abbbbbbbbbbbbbbbbbbbbbbbbbbbbbbbbbbbbbbb") (cs "abbb")
     ⟨by decide, by decide⟩ (by decide) (by decide) (by decide) (by decide)⟩

/-! ## Lemmas for `write_tree` determinism -/

theorem nameLe_total : ∀ a b : List Char, nameLe a b = true ∨ nameLe b a = true
  | [], b => Or.inl rfl
  | a :: as, [] => Or.inr rfl
  | a :: as, b :: bs => by
      by_cases hab : a = b
      · subst hab
        simp only [nameLe, if_pos rfl]
        exact nameLe_total as bs
      · have hba : ¬ b = a := fun h => hab h.symm
        simp only [nameLe, if_neg hab, if_neg hba]
        rcases lt_trichotomy a b with h | h | h
        · exact Or.inl (by simpa using h)
        · exact absurd h hab
        · exact Or.inr (by simpa using h)

theorem nameLe_trans : ∀ a b c : List Char,
    nameLe a b = true → nameLe b c = true → nameLe a c = true
  | [], _, _, _, _ => rfl
  | _ :: _, [], _, h, _ => by simp [nameLe] at h
  | _ :: _, _ :: _, [], _, h => by simp [nameLe] at h
  | a :: as, b :: bs, c :: cks, h1, h2 => by
      by_cases hab : a = b <;> by_cases hbc : b = c
      · subst hab
        subst hbc
        simp only [nameLe, if_pos rfl] at h1 h2 ⊢
        exact nameLe_trans as bs cks h1 h2
      · subst hab
        simp only [nameLe, if_pos rfl, if_neg hbc] at h1 h2 ⊢
        exact h2
      · subst hbc
        simp only [nameLe, if_neg hab, if_pos rfl] at h1 h2 ⊢
        exact h1
      · simp only [nameLe, if_neg hab, if_neg hbc, decide_eq_true_eq] at h1 h2
        have hac : a < c := lt_trans h1 h2
        have hane : ¬ a = c := ne_of_lt hac
        simp only [nameLe, if_neg hane, decide_eq_true_eq]
        exact hac

theorem nameLe_antisymm : ∀ a b : List Char,
    nameLe a b = true → nameLe b a = true → a = b
  | [], [], _, _ => rfl
  | [], _ :: _, _, h => by simp [nameLe] at h
  | _ :: _, [], h, _ => by simp [nameLe] at h
  | a :: as, b :: bs, h1, h2 => by
      by_cases hab : a = b
      · subst hab
        simp only [nameLe, if_pos rfl] at h1 h2
        rw [nameLe_antisymm as bs h1 h2]
      · have hba : ¬ b = a := fun h => hab h.symm
        simp only [nameLe, if_neg hab, if_neg hba, decide_eq_true_eq] at h1 h2
        exact absurd (lt_trans h1 h2) (lt_irrefl a)

instance : IsTotal TreeEntry entryLe :=
  ⟨fun x y => nameLe_total x.name y.name⟩

instance : IsTrans TreeEntry entryLe :=
  ⟨fun x y z h1 h2 => nameLe_trans x.name y.name z.name h1 h2⟩

/-- Two lists sorted by name that are permutations of each other and have
duplicate-free names are equal — the antisymmetry `sort_by_key` relies on. -/
theorem eq_of_perm_sorted_nodup_names :
    ∀ {l1 l2 : List TreeEntry}, l1.Perm l2 →
      l1.Sorted entryLe → l2.Sorted entryLe →
      (l1.map TreeEntry.name).Nodup → l1 = l2 := by
  intro l1
  induction l1 with
  | nil =>
      intro l2 hp _ _ _
      exact hp.nil_eq
  | cons a t1 ih =>
      intro l2 hp hs1 hs2 hnd
      rcases l2 with _ | ⟨b, t2⟩
      · cases hp.eq_nil
      have hab : a = b := by
        by_contra hne
        have hbmem : b ∈ a :: t1 := hp.mem_iff.mpr (by simp)
        have hamem : a ∈ b :: t2 := hp.mem_iff.mp (by simp)
        have hb1 : b ∈ t1 := by
          rcases List.mem_cons.mp hbmem with h | h
          · exact absurd h.symm hne
          · exact h
        have ha2 : a ∈ t2 := by
          rcases List.mem_cons.mp hamem with h | h
          · exact absurd h hne
          · exact h
        have hle1 : entryLe a b := List.rel_of_sorted_cons hs1 b hb1
        have hle2 : entryLe b a := List.rel_of_sorted_cons hs2 a ha2
        have hname : a.name = b.name := nameLe_antisymm _ _ hle1 hle2
        have hnm : a.name ∉ t1.map TreeEntry.name :=
          (List.nodup_cons.mp (by simpa using hnd)).1
        apply hnm
        rw [hname]
        exact List.mem_map_of_mem TreeEntry.name hb1
      subst hab
      have hpt : t1.Perm t2 := hp.cons_inv
      have htnd : (t1.map TreeEntry.name).Nodup :=
        (List.nodup_cons.mp (by simpa using hnd)).2
      rw [ih hpt hs1.of_cons hs2.of_cons htnd]

/-- `FsEquiv` nodes resolve to the same link-following metadata. -/
theorem metadataOf_congr : ∀ (n m : FsNode), FsEquiv n m →
    metadataOf n = metadataOf m
  | .file e c, .file f d, h => by
      have h2 : e = f ∧ c = d := by simpa [FsEquiv] using h
      rw [h2.1, h2.2]
  | .symlink t, .symlink u, h => by
      have h2 : FsEquiv t u := by simpa [FsEquiv] using h
      have hr := metadataOf_congr t u h2
      simpa [metadataOf, resolveNode] using hr
  | .dir ch1, .dir ch2, _ => by simp [metadataOf, resolveNode]
  | .file _ _, .symlink _, h => by simp [FsEquiv] at h
  | .file _ _, .dir _, h => by simp [FsEquiv] at h
  | .symlink _, .file _ _, h => by simp [FsEquiv] at h
  | .symlink _, .dir _, h => by simp [FsEquiv] at h
  | .dir _, .file _ _, h => by simp [FsEquiv] at h
  | .dir _, .symlink _, h => by simp [FsEquiv] at h

/-- The entry `write_tree` builds for one retained child. -/
def childEntry (H : List Nat → List Char) (keep : List (List Char) → Bool)
    (path : List (List Char)) (c : List Char × FsNode) : TreeEntry :=
  ⟨modeString (metadataOf c.2), c.1, nodeHash H keep (path ++ [c.1]) c.2⟩

theorem dirEntries_eq_map (H : List Nat → List Char)
    (keep : List (List Char) → Bool) (path : List (List Char)) :
    ∀ l, dirEntries H keep path l =
      (l.filter fun c => keep (path ++ [c.1])).map (childEntry H keep path)
  | [] => by simp [dirEntries]
  | c :: rest => by
      by_cases hk : keep (path ++ [c.1]) = true
      · simp [dirEntries, List.filter_cons, hk, childEntry,
          dirEntries_eq_map H keep path rest]
      · simp [dirEntries, List.filter_cons, hk,
          dirEntries_eq_map H keep path rest]

/-- Permuting the enumeration permutes the accumulated entries. -/
theorem dirEntries_perm (H : List Nat → List Char)
    (keep : List (List Char) → Bool) (path : List (List Char))
    {l1 l2 : List (List Char × FsNode)} (hp : l1.Perm l2) :
    (dirEntries H keep path l1).Perm (dirEntries H keep path l2) := by
  rw [dirEntries_eq_map, dirEntries_eq_map]
  exact (hp.filter _).map _

/-- Index-wise equal children (same names, same metadata, same hashes)
accumulate equal entry lists. -/
theorem dirEntries_eq_of_pointwise (H : List Nat → List Char)
    (keep : List (List Char) → Bool) (path : List (List Char)) :
    ∀ (l1 l2 : List (List Char × FsNode)), l1.length = l2.length →
      (∀ i : Nat, ∀ h1 : i < l1.length, ∀ h2 : i < l2.length,
        (l1.get ⟨i, h1⟩).1 = (l2.get ⟨i, h2⟩).1 ∧
        metadataOf (l1.get ⟨i, h1⟩).2 = metadataOf (l2.get ⟨i, h2⟩).2 ∧
        ∀ p, nodeHash H keep p (l1.get ⟨i, h1⟩).2 =
          nodeHash H keep p (l2.get ⟨i, h2⟩).2) →
      dirEntries H keep path l1 = dirEntries H keep path l2
  | [], [], _, _ => rfl
  | [], c2 :: r2, hlen, _ => by simp at hlen
  | c1 :: r1, [], hlen, _ => by simp at hlen
  | c1 :: r1, c2 :: r2, hlen, hpt => by
      have h0 := hpt 0 (by simp) (by simp)
      have hname : c1.1 = c2.1 := h0.1
      have hmeta : metadataOf c1.2 = metadataOf c2.2 := h0.2.1
      have hhash : ∀ p, nodeHash H keep p c1.2 = nodeHash H keep p c2.2 :=
        h0.2.2
      have hrest : dirEntries H keep path r1 = dirEntries H keep path r2 :=
        dirEntries_eq_of_pointwise H keep path r1 r2 (by simpa using hlen)
          fun i h1 h2 => hpt (i + 1) (by simpa using h1) (by simpa using h2)
      simp only [dirEntries, hname]
      by_cases hk : keep (path ++ [c2.1]) = true
      · rw [if_pos hk, if_pos hk, hrest, hmeta, hhash]
      · rw [if_neg hk, if_neg hk, hrest]

/-- `nodeHash` is invariant under reordering of directory enumerations. -/
theorem nodeHash_congr (H : List Nat → List Char)
    (keep : List (List Char) → Bool) :
    ∀ (n m : FsNode), FsEquiv n m → ∀ path,
      nodeHash H keep path n = nodeHash H keep path m
  | .file e c, .file f d, h, path => by
      have h2 : e = f ∧ c = d := by simpa [FsEquiv] using h
      simp [nodeHash, h2.2]
  | .symlink t, .symlink u, h, path => by
      have h2 : FsEquiv t u := by simpa [FsEquiv] using h
      simpa [nodeHash] using nodeHash_congr H keep t u h2 path
  | .dir ch1, .dir ch2, h, path => by
      unfold FsEquiv at h
      obtain ⟨hnd, mid, hperm, hlen, hpt⟩ := h
      have he1 : dirEntries H keep path ch1 = dirEntries H keep path mid :=
        dirEntries_eq_of_pointwise H keep path ch1 mid hlen fun i hi1 hi2 =>
          ⟨(hpt i hi1 hi2).1,
           metadataOf_congr _ _ (hpt i hi1 hi2).2,
           fun p => nodeHash_congr H keep _ _ (hpt i hi1 hi2).2 p⟩
      have hperm2 : (dirEntries H keep path mid).Perm
          (dirEntries H keep path ch2) := dirEntries_perm H keep path hperm
      have hsorted1 :
          (List.insertionSort entryLe (dirEntries H keep path mid)).Sorted
            entryLe := List.sorted_insertionSort entryLe _
      have hsorted2 :
          (List.insertionSort entryLe (dirEntries H keep path ch2)).Sorted
            entryLe := List.sorted_insertionSort entryLe _
      have hglobal :
          (List.insertionSort entryLe (dirEntries H keep path mid)).Perm
            (List.insertionSort entryLe (dirEntries H keep path ch2)) :=
        ((List.perm_insertionSort entryLe _).trans hperm2).trans
          (List.perm_insertionSort entryLe _).symm
      have hmapeq : ch1.map Prod.fst = mid.map Prod.fst := by
        apply List.ext_get (by simp [hlen])
        intro i hi1 hi2
        simp only [List.get_map]
        exact (hpt i (by simpa using hi1) (by simpa using hi2)).1
      have hnamesmid : ((dirEntries H keep path mid).map TreeEntry.name).Nodup := by
        rw [dirEntries_eq_map, List.map_map]
        have hfst : (TreeEntry.name ∘ childEntry H keep path) = Prod.fst := by
          funext c
          rfl
        rw [hfst]
        have hndmid : (mid.map Prod.fst).Nodup := by
          rw [← hmapeq]
          exact hnd
        exact hndmid.sublist (List.Sublist.map Prod.fst (List.filter_sublist _))
      have hnamessorted :
          ((List.insertionSort entryLe (dirEntries H keep path mid)).map
            TreeEntry.name).Nodup :=
        (((List.perm_insertionSort entryLe _).map TreeEntry.name).nodup_iff).mpr
          hnamesmid
      have hsorteq :
          List.insertionSort entryLe (dirEntries H keep path ch1) =
            List.insertionSort entryLe (dirEntries H keep path ch2) := by
        rw [he1]
        exact eq_of_perm_sorted_nodup_names hglobal hsorted1 hsorted2
          hnamessorted
      simp only [nodeHash, hsorteq]
  | .file _ _, .symlink _, h, _ => by simp [FsEquiv] at h
  | .file _ _, .dir _, h, _ => by simp [FsEquiv] at h
  | .symlink _, .file _ _, h, _ => by simp [FsEquiv] at h
  | .symlink _, .dir _, h, _ => by simp [FsEquiv] at h
  | .dir _, .file _ _, h, _ => by simp [FsEquiv] at h
  | .dir _, .symlink _, h, _ => by simp [FsEquiv] at h
termination_by n m h path => sizeOf n
decreasing_by
  · simp_wf
  · simp_wf
    have hmem : ch1.get ⟨i, hi1⟩ ∈ ch1 := List.get_mem ch1 i hi1
    have hs1 : sizeOf (ch1.get ⟨i, hi1⟩) < sizeOf ch1 :=
      List.sizeOf_lt_of_mem hmem
    have hs2 : sizeOf (ch1.get ⟨i, hi1⟩).2 < sizeOf (ch1.get ⟨i, hi1⟩) :=
      sizeOf_snd_lt _
    simp only [List.get_eq_getElem] at hs1 hs2
    simp only [FsNode.dir.sizeOf_spec] at *
    omega

/-- C9 (confirmed): `write_tree` is deterministic — on filesystem states
that are identical up to the order in which directory enumeration yields
children (same files and links, every directory holding the same uniquely
named children, possibly permuted), it returns identical identifiers, for
every digest function and every filter. -/
theorem c9_write_tree_deterministic (H : List Nat → List Char)
    (keep : List (List Char) → Bool) (d1 d2 : FsNode) (h : FsEquiv d1 d2) :
    write_tree H keep d1 = write_tree H keep d2 :=
  nodeHash_congr H keep d1 d2 h []

/-- A two-file directory. -/
def wtDirA : FsNode :=
  .dir [(cs "a", .file false [1]), (cs "b", .file false [2])]

/-- The same directory, enumerated in the opposite order. -/
def wtDirB : FsNode :=
  .dir [(cs "b", .file false [2]), (cs "a", .file false [1])]

theorem wtDir_equiv : FsEquiv wtDirA wtDirB := by
  simp only [wtDirA, wtDirB]
  unfold FsEquiv
  refine ⟨by decide,
    [(cs "a", FsNode.file false [1]), (cs "b", FsNode.file false [2])],
    List.Perm.swap (cs "b", FsNode.file false [2])
      (cs "a", FsNode.file false [1]) [],
    rfl, ?_⟩
  intro i h1 h2
  simp only [List.length_cons, List.length_nil] at h1
  interval_cases i
  · exact ⟨rfl, by simp [FsEquiv]⟩
  · exact ⟨rfl, by simp [FsEquiv]⟩

/-- Witness for C9 at a concrete two-file directory and its reversed
enumeration, under a concrete digest function. -/
theorem c9_write_tree_deterministic_witness :
    write_tree (fun l => natChars l.length) (fun _ => true) wtDirA =
      write_tree (fun l => natChars l.length) (fun _ => true) wtDirB :=
  c9_write_tree_deterministic (fun l => natChars l.length) (fun _ => true)
    wtDirA wtDirB wtDir_equiv

end CCGit
